import Mathlib

/-!
# Verification of the anymail worker

A shallow embedding of `src/index.ts`: an email-ingestion handler that
extracts recipient addresses and 5-6 digit verification codes and writes
them to a TTL key-value store, and a fetch handler that serves authorized
lookups of stored codes.  Machine strings are `String`/`List Char`; the
key-value namespace is a function `String → Option String`; the fallible
`decodeURIComponent` is `Option`-valued and an uncaught throw is an
`Except.error`.
-/

/-! ## Character classes and JS-flavoured primitives -/

/-- Characters of the local-part class `[A-Z0-9._%+-]` under the `i` flag
(ASCII letters of either case, digits, and the five punctuation marks). -/
def isLocalChar (c : Char) : Bool :=
  c.isAlpha || c.isDigit || c = '.' || c = '_' || c = '%' || c = '+' || c = '-'

/-- Characters of the domain class `[A-Z0-9.-]` under the `i` flag. -/
def isDomainChar (c : Char) : Bool :=
  c.isAlpha || c.isDigit || c = '.' || c = '-'

/-- Word characters `[A-Za-z0-9_]` as used by the `\b` assertion of a
non-unicode JS regex. -/
def wordChar (c : Char) : Bool :=
  c.isAlpha || c.isDigit || c = '_'

/-- ASCII lower-casing of one character, as `String.prototype.toLowerCase`
acts on the ASCII range (the only characters the address regex can match). -/
def lowerChar (c : Char) : Char :=
  if 'A' ≤ c && c ≤ 'Z' then Char.ofNat (c.toNat + 32) else c

/-- Lower-casing of a character list. -/
def lowerList (l : List Char) : List Char :=
  l.map lowerChar

/-- The whitespace characters recognised by `parseInt` and `trim`: the
ECMA `StrWhiteSpace` set, that is `WhiteSpace` (TAB, VT, FF, SP, NBSP,
ZWNBSP U+FEFF, and the Unicode Zs space separators) together with the
line terminators LF, CR, LS and PS. -/
def isJsWhitespace (c : Char) : Bool :=
  c.toNat = 32 || c.toNat = 9 || c.toNat = 10 || c.toNat = 13 ||
  c.toNat = 11 || c.toNat = 12 || c.toNat = 160 || c.toNat = 5760 ||
  decide (8192 ≤ c.toNat ∧ c.toNat ≤ 8202) || c.toNat = 8232 ||
  c.toNat = 8233 || c.toNat = 8239 || c.toNat = 8287 ||
  c.toNat = 12288 || c.toNat = 65279

/-- JS `String.prototype.trim`: strip leading and trailing whitespace. -/
def jsTrim (s : String) : String :=
  String.mk (((s.toList.dropWhile isJsWhitespace).reverse.dropWhile
    isJsWhitespace).reverse)

/-- Value of a decimal digit list (most significant first). -/
def decVal (l : List Char) : Nat :=
  l.foldl (fun a c => a * 10 + (c.toNat - 48)) 0

/-- The longest leading run of decimal digits, valued; `none` when the list
does not start with a digit. -/
def digitsPfx (l : List Char) : Option Nat :=
  let ds := l.takeWhile Char.isDigit
  if ds.isEmpty then none else some (decVal ds)

/-- The result of `Number.parseInt`: a binary64, of which the source only
observes `Number.isFinite` and the sign of a finite value, so finite
values keep their exact (already rounded) integer magnitude. -/
inductive JsNumber where
  | nan
  | posInf
  | negInf
  | finite (v : Int)
  deriving DecidableEq

/-- Binary length of a natural number (`0` for `0`), by fuel — the fuel
`n` itself always suffices. -/
def bitlenGo : Nat → Nat → Nat
  | 0, _ => 0
  | fuel + 1, m => if m = 0 then 0 else bitlenGo fuel (m / 2) + 1

/-- Binary length of a natural number. -/
def bitlen (n : Nat) : Nat :=
  bitlenGo n n

/-- Round a natural number to the nearest binary64 value (ties to even):
integers below `2 ^ 53` are exact; above, the low `bitlen n - 53` bits
are rounded away at the ulp of the binade. -/
def f64round (n : Nat) : Nat :=
  if n < 2 ^ 53 then n
  else
    let k := bitlen n - 53
    let q := n / 2 ^ k
    let r := n % 2 ^ k
    let half := 2 ^ (k - 1)
    let q2 :=
      if half < r then q + 1
      else if r < half then q
      else if q % 2 = 0 then q else q + 1
    q2 * 2 ^ k

/-- Conversion of an exact integer to binary64: the rounded value, or
`none` for an overflow to Infinity (at or beyond `2 ^ 1024` after
rounding, i.e. from `2 ^ 1024 - 2 ^ 970` on). -/
def f64OfNat (n : Nat) : Option Nat :=
  if 2 ^ 1024 ≤ f64round n then none else some (f64round n)

/-- JS `Number.parseInt(s, 10)`: skip leading whitespace, read an optional
sign and then the longest leading digit run, ignoring everything after
it; no digits give `NaN`, and the exact value is converted to binary64,
overflowing to a signed Infinity. -/
def jsParseInt (s : String) : JsNumber :=
  let l := s.toList.dropWhile isJsWhitespace
  match l with
  | [] => JsNumber.nan
  | c :: rest =>
    if c = '-' then
      match digitsPfx rest with
      | none => JsNumber.nan
      | some n =>
        match f64OfNat n with
        | none => JsNumber.negInf
        | some v => JsNumber.finite (-(v : Int))
    else if c = '+' then
      match digitsPfx rest with
      | none => JsNumber.nan
      | some n =>
        match f64OfNat n with
        | none => JsNumber.posInf
        | some v => JsNumber.finite (v : Int)
    else
      match digitsPfx l with
      | none => JsNumber.nan
      | some n =>
        match f64OfNat n with
        | none => JsNumber.posInf
        | some v => JsNumber.finite (v : Int)

/-! ## The address matcher

`value.match(/[A-Z0-9._%+-]+@[A-Z0-9.-]+\.[A-Z]{2,}/i)` with JS backtracking
semantics: positions are tried left to right; at a position the greedy
`[A-Z0-9._%+-]+` is deterministic because `@` is outside the class, while
the greedy `[A-Z0-9.-]+` backtracks from its longest run until a literal
dot followed by at least two letters is found. -/

/-- Backtracking of the domain part after `@`: try the quantifier length
`d` descending; succeed when position `d` holds a dot followed by a run of
at least two letters, consuming that whole run (the regex ends there).
Returns the total length matched after the `@`. -/
def tryDomainSplit (l : List Char) : Nat → Option Nat
  | 0 => none
  | d + 1 =>
    let tld := (l.drop (d + 2)).takeWhile Char.isAlpha
    if l[d + 1]? = some '.' && 2 ≤ tld.length then some (d + 2 + tld.length)
    else tryDomainSplit l d

/-- Attempt to match the address regex at the head of `l`; returns the
matched prefix. -/
def matchAt (l : List Char) : Option (List Char) :=
  let loc := l.takeWhile isLocalChar
  if loc.length = 0 then none
  else if l[loc.length]? = some '@' then
    let rest := l.drop (loc.length + 1)
    match tryDomainSplit rest ((rest.takeWhile isDomainChar).length) with
    | some dlen => some (l.take (loc.length + 1 + dlen))
    | none => none
  else none

/-- Leftmost match of the address regex: try each start position in order. -/
def findMatch : List Char → Option (List Char)
  | [] => none
  | c :: rest =>
    match matchAt (c :: rest) with
    | some m => some m
    | none => findMatch rest

/-- Function `extractEmailAddress` from the source: `null`/`undefined`/empty input
gives `null`; otherwise the first regex match, lower-cased, or `null`. -/
def extractEmailAddress (value : Option String) : Option String :=
  match value with
  | none => none
  | some s =>
    if s = "" then none
    else
      match findMatch s.toList with
      | some m => some (String.mk (lowerList m))
      | none => none

/-! ## Recipients -/

/-- The `to` field: absent, a single string, or an array of strings.
`Array.isArray` sends a non-array (including `undefined`) to the
one-element list holding it. -/
def toEntries : Option (String ⊕ List String) → List (Option String)
  | none => [none]
  | some (Sum.inl s) => [some s]
  | some (Sum.inr l) => l.map some

/-- The accumulation loop of `getRecipients`: extract each entry
(`entry ?? ""`), skip failures, and push unseen addresses in order. -/
def recipientsLoop : List (Option String) → List String → List String
  | [], acc => acc
  | e :: rest, acc =>
    match extractEmailAddress (some (e.getD "")) with
    | some email =>
      if acc.contains email then recipientsLoop rest acc
      else recipientsLoop rest (acc ++ [email])
    | none => recipientsLoop rest acc

/-- Function `getRecipients` from the source. -/
def getRecipients (dest : Option (String ⊕ List String)) : List String :=
  recipientsLoop (toEntries dest) []

/-! ## The code matcher: `/\b(\d{5,6})\b/` -/

/-- The `\b` assertion against the character at a given side, when the
other side is a word character: satisfied at the string edge or at a
non-word character. -/
def boundaryOk : Option Char → Bool
  | none => true
  | some c => !wordChar c

/-- Attempt to match `\d{5,6}\b` at the head of `l` (the left boundary is
the caller's concern): greedy, six digits preferred over five. -/
def codeAt (l : List Char) : Option (List Char) :=
  let run := l.takeWhile Char.isDigit
  if 6 ≤ run.length && boundaryOk l[6]? then some (l.take 6)
  else if 5 ≤ run.length && boundaryOk l[5]? then some (l.take 5)
  else none

/-- Leftmost match of the code regex; `prevW` records whether the character
before the current position is a word character (false at the start). -/
def findCode : Bool → List Char → Option (List Char)
  | _, [] => none
  | prevW, c :: rest =>
    match (if prevW then none else codeAt (c :: rest)) with
    | some m => some m
    | none => findCode (wordChar c) rest

/-- Function `extractCode` from the source: the first word-bounded 5-6 digit token,
verbatim. -/
def extractCode (text : String) : Option String :=
  (findCode false text.toList).map String.mk

/-! ## Body reading -/

/-- Function `readRawText` from the source.  The body stream is modelled by its
outcome: absent, a successful read of the full text, or a read failure;
the `try`/`catch` turns the failure into the empty string. -/
def readRawText (raw : Option (Except Unit String)) : String :=
  match raw with
  | none => ""
  | some (Except.ok s) => s
  | some (Except.error _) => ""

/-! ## Configuration helpers -/

/-- Function `getAccessKey` from the source: case-insensitive `bearer ` scheme
prefix, then the remainder of the header, trimmed. -/
def getAccessKeyOf (authorization : Option String) : String :=
  let auth := authorization.getD ""
  if List.isPrefixOf ("bearer ".toList) (lowerList auth.toList) then
    jsTrim (String.mk (auth.toList.drop 7))
  else ""

/-- Function `normalizeTtlSeconds` from the source: `parseInt` of the
configured string (absent read as `""`); `Number.isFinite` rejects `NaN`
and the Infinities, a finite positive result is kept, anything else
falls back to the default 600. -/
def normalizeTtlSeconds (value : Option String) : Int :=
  match jsParseInt (value.getD "") with
  | JsNumber.finite n => if 0 < n then n else 600
  | _ => 600

/-- Function `buildKey` from the source. -/
def buildKey (email : String) : String :=
  "code:" ++ email

/-- Function `parseDomains` from the source: falsy input gives `[]`; otherwise split
on commas, trim, lower-case, drop empties. -/
def parseDomains (value : Option String) : List String :=
  match value with
  | none => []
  | some v =>
    if v = "" then []
    else ((v.splitOn ",").map (fun d => String.mk (lowerList (jsTrim d).toList))).filter
      (fun d => d.length ≠ 0)

/-! ## `decodeURIComponent`

The ECMA-262 `Decode` operation with an empty reserved set: literal
characters pass through, `%XX` pairs decode to bytes, and every maximal
byte run must be a valid (strict) UTF-8 encoding.  `none` stands for a
thrown `URIError`. -/

/-- Value of one hex digit (both cases accepted). -/
def hexVal (c : Char) : Option Nat :=
  if c.isDigit then some (c.toNat - 48)
  else if 'A' ≤ c && c ≤ 'F' then some (c.toNat - 55)
  else if 'a' ≤ c && c ≤ 'f' then some (c.toNat - 87)
  else none

/-- A UTF-8 continuation byte. -/
def isCont (b : Nat) : Bool :=
  128 <= b && b <= 191

/-- The ECMA-262 `Decode` walk with an empty reserved set: literal
characters pass through; a `%` must head two hex digits giving a byte;
a lead byte above `0x7F` must be the start of a strict UTF-8 sequence
whose continuation bytes are themselves `%XX` escapes (overlong forms,
surrogates and values above U+10FFFF rejected); `none` is a thrown
`URIError`. -/
def decodeURIList : List Char → Option (List Char)
  | [] => some []
  | '%' :: a :: b :: rest =>
    match hexVal a, hexVal b with
    | some x, some y =>
      if 16 * x + y < 128 then
        (decodeURIList rest).map (fun t => Char.ofNat (16 * x + y) :: t)
      else if 194 <= 16 * x + y && 16 * x + y <= 223 then
        match rest with
        | '%' :: a2 :: b2 :: rest2 =>
          match hexVal a2, hexVal b2 with
          | some x2, some y2 =>
            if isCont (16 * x2 + y2) then
              (decodeURIList rest2).map (fun t =>
                Char.ofNat ((16 * x + y - 192) * 64 + (16 * x2 + y2 - 128)) :: t)
            else none
          | _, _ => none
        | _ => none
      else if 224 <= 16 * x + y && 16 * x + y <= 239 then
        match rest with
        | '%' :: a2 :: b2 :: '%' :: a3 :: b3 :: rest2 =>
          match hexVal a2, hexVal b2, hexVal a3, hexVal b3 with
          | some x2, some y2, some x3, some y3 =>
            if ((if 16 * x + y = 224 then 160 else 128) <= 16 * x2 + y2 &&
                16 * x2 + y2 <= (if 16 * x + y = 237 then 159 else 191)) &&
                isCont (16 * x3 + y3) then
              (decodeURIList rest2).map (fun t =>
                Char.ofNat ((16 * x + y - 224) * 4096 +
                  (16 * x2 + y2 - 128) * 64 + (16 * x3 + y3 - 128)) :: t)
            else none
          | _, _, _, _ => none
        | _ => none
      else if 240 <= 16 * x + y && 16 * x + y <= 244 then
        match rest with
        | '%' :: a2 :: b2 :: '%' :: a3 :: b3 :: '%' :: a4 :: b4 :: rest2 =>
          match hexVal a2, hexVal b2, hexVal a3, hexVal b3, hexVal a4, hexVal b4 with
          | some x2, some y2, some x3, some y3, some x4, some y4 =>
            if ((if 16 * x + y = 240 then 144 else 128) <= 16 * x2 + y2 &&
                16 * x2 + y2 <= (if 16 * x + y = 244 then 143 else 191)) &&
                isCont (16 * x3 + y3) && isCont (16 * x4 + y4) then
              (decodeURIList rest2).map (fun t =>
                Char.ofNat ((16 * x + y - 240) * 262144 +
                  (16 * x2 + y2 - 128) * 4096 + (16 * x3 + y3 - 128) * 64 +
                  (16 * x4 + y4 - 128)) :: t)
            else none
          | _, _, _, _, _, _ => none
        | _ => none
      else none
    | _, _ => none
  | '%' :: _ => none
  | c :: rest => (decodeURIList rest).map (fun t => c :: t)

/-- Function `decodeURIComponent`; `none` is a thrown `URIError`. -/
def decodeURIComponentModel (s : String) : Option String :=
  (decodeURIList s.toList).map String.mk

/-! ## The two entry points -/

/-- The worker environment (`ACCESS_KEY` is typed required but an unbound
or empty secret both read as the falsy `""`). -/
structure WorkerEnv where
  ACCESS_KEY : String
  CODE_TTL_SECONDS : Option String
  DOMAINS : Option String
  deriving DecidableEq

/-- An inbound message: destination field, `subject` header, body stream
outcome. -/
structure InboundMessage where
  toField : Option (String ⊕ List String)
  subject : Option String
  raw : Option (Except Unit String)

/-- One `ANYMAIL_CODES.put(key, value, { expirationTtl })` call. -/
structure StoreWrite where
  key : String
  value : String
  expirationTtl : Int
  deriving DecidableEq

/-- The `email` entry point, as the list of store writes it issues (in
recipient order); the silent-discard branches issue none.  `ctx.waitUntil`
only tracks their completion and is not modelled. -/
def emailHandler (msg : InboundMessage) (env : WorkerEnv) : List StoreWrite :=
  let recipients := getRecipients msg.toField
  if recipients.length = 0 then []
  else
    let subject := msg.subject.getD ""
    let rawText := readRawText msg.raw
    match extractCode (subject ++ "\n" ++ rawText) with
    | none => []
    | some code =>
      recipients.map (fun r =>
        { key := buildKey r, value := code,
          expirationTtl := normalizeTtlSeconds env.CODE_TTL_SECONDS })

/-- A lookup request: method, URL pathname, `authorization` header. -/
structure HttpRequest where
  method : String
  pathname : String
  authorization : Option String
  deriving DecidableEq

/-- The JSON payload shapes produced by the handler. -/
inductive JsonBody where
  | err (message : String)
  | domains (ds : List String)
  | code (c : String)
  deriving DecidableEq

/-- A response of the `json` helper: status and payload (the content type
is the constant `application/json; charset=utf-8`). -/
structure HttpResponse where
  status : Nat
  body : JsonBody
  deriving DecidableEq

/-- The source expression `path.replace(/^\/+/, "")`. -/
def stripSlashes (s : String) : String :=
  String.mk (s.toList.dropWhile (fun c => c = '/'))

/-- The `fetch` entry point over a store snapshot `kv`; `Except.error ()`
is an exception escaping the handler (the `URIError` of a malformed
percent-encoding). -/
def fetchHandler (req : HttpRequest) (env : WorkerEnv)
    (kv : String → Option String) : Except Unit HttpResponse :=
  if req.method ≠ "GET" then
    Except.ok { status := 405, body := JsonBody.err "method not allowed" }
  else
    let accessKey := getAccessKeyOf req.authorization
    if env.ACCESS_KEY = "" ∨ accessKey ≠ env.ACCESS_KEY then
      Except.ok { status := 401, body := JsonBody.err "unauthorized" }
    else
      let path := stripSlashes req.pathname
      if path = "" then
        Except.ok { status := 200, body := JsonBody.domains (parseDomains env.DOMAINS) }
      else
        match decodeURIComponentModel path with
        | none => Except.error ()
        | some decoded =>
          match extractEmailAddress (some decoded) with
          | none => Except.ok { status := 400, body := JsonBody.err "invalid email" }
          | some email =>
            match kv (buildKey email) with
            | none => Except.ok { status := 404, body := JsonBody.code "" }
            | some c =>
              if c = "" then Except.ok { status := 404, body := JsonBody.code "" }
              else Except.ok { status := 200, body := JsonBody.code c }

/-! ## Character lemmas -/

/-- Projection `toNat` inverts `Char.ofNat` on valid scalar values below the
surrogate range. -/
theorem toNat_ofNat_valid (n : Nat) (h : n < 55296) : (Char.ofNat n).toNat = n := by
  simp [Char.ofNat, Nat.isValidChar, h, Char.toNat, Char.ofNatAux,
    UInt32.toNat, BitVec.toNat_ofNatLt]

/-- The scalar-value bounds of an ASCII upper-case letter. -/
theorem upper_toNat {c : Char} (h : ('A' ≤ c && c ≤ 'Z') = true) :
    65 ≤ c.toNat ∧ c.toNat ≤ 90 := by
  simp [Bool.and_eq_true, Char.le_def, Char.toNat] at *
  exact h

/-- The image of an upper-case letter under `lowerChar` is a fixed point
of `lowerChar` and a letter. -/
theorem lower_shift (m : Nat) (h1 : 97 ≤ m) (h2 : m ≤ 122) :
    lowerChar (Char.ofNat m) = Char.ofNat m ∧ (Char.ofNat m).isAlpha = true := by
  interval_cases m <;> exact ⟨by decide, by decide⟩

/-- Lower-casing `lowerChar` is idempotent. -/
theorem lowerChar_idem (c : Char) : lowerChar (lowerChar c) = lowerChar c := by
  unfold lowerChar
  by_cases h : ('A' ≤ c && c ≤ 'Z') = true
  · rw [if_pos h]
    have hb := upper_toNat h
    have h2 := (lower_shift (c.toNat + 32) (by omega) (by omega)).1
    unfold lowerChar at h2
    exact h2
  · rw [if_neg h, if_neg h]

/-- Lower-casing `lowerList` is idempotent. -/
theorem lowerList_idem (l : List Char) : lowerList (lowerList l) = lowerList l := by
  simp [lowerList, List.map_map, Function.comp]
  exact fun c _ => lowerChar_idem c

/-- Map `lowerChar` preserves letters. -/
theorem lowerChar_isAlpha {c : Char} (h : c.isAlpha = true) :
    (lowerChar c).isAlpha = true := by
  unfold lowerChar
  by_cases hu : ('A' ≤ c && c ≤ 'Z') = true
  · rw [if_pos hu]
    have hb := upper_toNat hu
    exact (lower_shift (c.toNat + 32) (by omega) (by omega)).2
  · rw [if_neg hu]; exact h

/-- A letter is a domain character. -/
theorem isDomainChar_of_isAlpha {c : Char} (h : c.isAlpha = true) :
    isDomainChar c = true := by
  simp [isDomainChar, h]

/-- A domain character is a local character. -/
theorem isLocalChar_of_isDomainChar {c : Char} (h : isDomainChar c = true) :
    isLocalChar c = true := by
  simp [isDomainChar, Bool.or_eq_true] at h
  rcases h with ((h | h) | h) | h <;> simp [isLocalChar, h]

/-- Map `lowerChar` preserves domain characters. -/
theorem lowerChar_isDomainChar {c : Char} (h : isDomainChar c = true) :
    isDomainChar (lowerChar c) = true := by
  unfold lowerChar
  by_cases hu : ('A' ≤ c && c ≤ 'Z') = true
  · rw [if_pos hu]
    have hb := upper_toNat hu
    exact isDomainChar_of_isAlpha (lower_shift (c.toNat + 32) (by omega) (by omega)).2
  · rw [if_neg hu]; exact h

/-- Map `lowerChar` preserves local characters. -/
theorem lowerChar_isLocalChar {c : Char} (h : isLocalChar c = true) :
    isLocalChar (lowerChar c) = true := by
  unfold lowerChar
  by_cases hu : ('A' ≤ c && c ≤ 'Z') = true
  · rw [if_pos hu]
    have hb := upper_toNat hu
    exact isLocalChar_of_isDomainChar (isDomainChar_of_isAlpha
      (lower_shift (c.toNat + 32) (by omega) (by omega)).2)
  · rw [if_neg hu]; exact h

/-- A letter is not a dot. -/
theorem ne_dot_of_isAlpha {c : Char} (h : c.isAlpha = true) : c ≠ '.' := by
  intro he
  rw [he] at h
  exact absurd h (by decide)

/-! ## List scanning lemmas -/

/-- Scan `takeWhile` stops exactly at the first failing element. -/
theorem takeWhile_append_cons {p : Char → Bool} {a : List Char}
    (ha : ∀ c ∈ a, p c = true) {b : Char} (hb : p b = false) (t : List Char) :
    (a ++ b :: t).takeWhile p = a := by
  induction a with
  | nil => simp [List.takeWhile_cons, hb]
  | cons x xs ih =>
    have hx : p x = true := ha x (by simp)
    simp only [List.cons_append, List.takeWhile_cons, hx, if_pos]
    rw [ih (fun c hc => ha c (by simp [hc]))]

/-- A run of satisfying elements bounds the `takeWhile` length from below. -/
theorem length_takeWhile_ge {p : Char → Bool} {a : List Char}
    (ha : ∀ c ∈ a, p c = true) (r : List Char) :
    a.length ≤ ((a ++ r).takeWhile p).length := by
  induction a with
  | nil => simp
  | cons x xs ih =>
    have hx : p x = true := ha x (by simp)
    simp only [List.cons_append, List.takeWhile_cons, hx, if_pos, List.length_cons]
    exact Nat.succ_le_succ (ih (fun c hc => ha c (by simp [hc])))

/-- The element just past an initial segment of an append. -/
theorem getElem?_append_mid (a : List Char) (b : Char) (t : List Char) :
    (a ++ b :: t)[a.length]? = some b := by
  rw [List.getElem?_append_right (Nat.le_refl _)]
  simp

/-- Dropping an initial segment and its successor element. -/
theorem drop_append_succ (a : List Char) (b : Char) (t : List Char) :
    (a ++ b :: t).drop (a.length + 1) = t := by
  have h : a ++ b :: t = (a ++ [b]) ++ t := by simp
  have h2 : (a ++ [b]).length = a.length + 1 := by simp
  rw [h, ← h2, List.drop_left]

/-- Every element of `take k` satisfies `p` when `k` does not exceed the
`takeWhile` length. -/
theorem all_take_of_le_takeWhile {p : Char → Bool} {l : List Char} {k : Nat}
    (h : k ≤ (l.takeWhile p).length) : ∀ c ∈ l.take k, p c = true := by
  induction l generalizing k with
  | nil => simp
  | cons x xs ih =>
    cases k with
    | zero => simp
    | succ k =>
      by_cases hx : p x = true
      · simp only [List.takeWhile_cons, hx, if_pos, List.length_cons] at h
        intro c hc
        simp only [List.take_succ_cons, List.mem_cons] at hc
        rcases hc with rfl | hc
        · exact hx
        · exact ih (Nat.le_of_succ_le_succ h) c hc
      · simp [List.takeWhile_cons, Bool.eq_false_iff.2 hx] at h

/-! ## Matcher lemmas -/

/-- A prefix is recovered by `take` of its length. -/
theorem take_of_prefix {T l2 : List Char} (h : T <+: l2) : l2.take T.length = T := by
  obtain ⟨t, rfl⟩ := h
  exact List.take_left T t

/-- Taking through an append whose left part has known length. -/
theorem take_append_len {a b : List Char} {K n : Nat} (h : a.length = K) :
    (a ++ b).take (K + n) = a ++ b.take n := by
  subst h
  exact List.take_append n

/-- What a successful domain backtracking step means: some quantifier
length `d` in range carries a dot at position `d` followed by a letter run
of length at least two, and the result consumes through that run. -/
theorem tryDomainSplit_some {l : List Char} {start dlen : Nat}
    (h : tryDomainSplit l start = some dlen) :
    ∃ d, 1 ≤ d ∧ d ≤ start ∧ l[d]? = some '.' ∧
      2 ≤ ((l.drop (d + 1)).takeWhile Char.isAlpha).length ∧
      dlen = d + 1 + ((l.drop (d + 1)).takeWhile Char.isAlpha).length := by
  induction start with
  | zero => simp [tryDomainSplit] at h
  | succ k ih =>
    simp only [tryDomainSplit] at h
    split at h
    next hcond =>
      simp only [Bool.and_eq_true, decide_eq_true_eq] at hcond
      injection h with h
      refine ⟨k + 1, by omega, by omega, hcond.1, hcond.2, ?_⟩
      rw [show k + 1 + 1 = k + 2 from rfl]
      omega
    next hcond =>
      obtain ⟨d, h1, h2, h3, h4, h5⟩ := ih h
      exact ⟨d, h1, by omega, h3, h4, h5⟩

/-- Domain backtracking succeeds whenever some quantifier length in range
would succeed. -/
theorem tryDomainSplit_isSome {l : List Char} {d start : Nat}
    (h1 : 1 ≤ d) (h2 : d ≤ start) (hdot : l[d]? = some '.')
    (htld : 2 ≤ ((l.drop (d + 1)).takeWhile Char.isAlpha).length) :
    ∃ r, tryDomainSplit l start = some r := by
  induction start with
  | zero => omega
  | succ k ih =>
    simp only [tryDomainSplit]
    split
    · exact ⟨_, rfl⟩
    next hcond =>
      rcases Nat.lt_or_ge d (k + 1) with hlt | hge
      · exact ih (by omega)
      · exfalso
        have hdk : d = k + 1 := by omega
        subst hdk
        rw [hdot] at hcond
        rw [show k + 1 + 1 = k + 2 from rfl] at htld
        simp at hcond
        omega

/-- On a list of the exact shape `D ++ '.' :: T` with `T` a letter run,
domain backtracking from any sufficient start finds the dot at position
`D.length` and consumes everything. -/
theorem tryDomainSplit_exact (D T : List Char) (hD1 : 1 ≤ D.length)
    (hT : ∀ c ∈ T, c.isAlpha = true) (hTlen : 2 ≤ T.length) :
    ∀ start, D.length ≤ start → start ≤ D.length + 1 + T.length →
      tryDomainSplit (D ++ '.' :: T) start = some (D.length + 1 + T.length) := by
  intro start
  induction start with
  | zero => omega
  | succ k ih =>
    intro hs1 hs2
    have htw : T.takeWhile Char.isAlpha = T := List.takeWhile_eq_self_iff.2 hT
    simp only [tryDomainSplit]
    by_cases heq : D.length = k + 1
    · have hdot : (D ++ '.' :: T)[k + 1]? = some '.' := by
        rw [← heq]; exact getElem?_append_mid D '.' T
      have hdrop : (D ++ '.' :: T).drop (k + 2) = T := by
        have h2 := drop_append_succ D '.' T
        rw [heq] at h2
        simpa using h2
      rw [if_pos (by simp [hdot, hdrop, htw, hTlen])]
      rw [hdrop, htw]
      congr 1
      omega
    · have hfail : (D ++ '.' :: T)[k + 1]? ≠ some '.' := by
        have hgt : D.length < k + 1 := by omega
        have hj : k + 1 - D.length = (k - D.length) + 1 := by omega
        rw [List.getElem?_append_right (by omega), hj, List.getElem?_cons_succ]
        intro hcon
        exact ne_dot_of_isAlpha (hT '.' (List.mem_iff_getElem?.2 ⟨_, hcon⟩)) rfl
      rw [if_neg (by simp [hfail])]
      exact ih (by omega) (by omega)

/-- The shape of an address-regex match: a non-empty run of local
characters, `@`, a non-empty run of domain characters, a dot, and a letter
run of length at least two. -/
def addrShape (t : List Char) : Prop :=
  ∃ loc D T : List Char,
    t = loc ++ '@' :: (D ++ '.' :: T) ∧
    loc ≠ [] ∧ (∀ c ∈ loc, isLocalChar c = true) ∧
    D ≠ [] ∧ (∀ c ∈ D, isDomainChar c = true) ∧
    (∀ c ∈ T, c.isAlpha = true) ∧ 2 ≤ T.length

/-- An empty list never matches. -/
theorem matchAt_nil : matchAt [] = none := by
  simp [matchAt]

/-- A match at the head of `l` is a prefix of `l` with the address shape. -/
theorem matchAt_decomp {l m : List Char} (h : matchAt l = some m) :
    m <+: l ∧ addrShape m := by
  simp only [matchAt] at h
  split at h
  · exact absurd h (by simp)
  split at h
  case isFalse => exact absurd h (by simp)
  next hK hat =>
    split at h
    case h_2 => exact absurd h (by simp)
    next dlen hsplit =>
      injection h with h
      subst h
      constructor
      · exact List.take_prefix _ _
      obtain ⟨d, hd1, hdle, hdot, htld, hdlen⟩ := tryDomainSplit_some hsplit
      set K := (l.takeWhile isLocalChar).length with hKdef
      set rest := l.drop (K + 1) with hrest
      set T := (rest.drop (d + 1)).takeWhile Char.isAlpha with hT
      set D := rest.take d with hD
      have hdlt : d < rest.length := by
        rcases List.getElem?_eq_some.1 hdot with ⟨hb, _⟩
        exact hb
      have hDlen : D.length = d := by
        rw [hD, List.length_take]
        omega
      have hlK : l.take K = l.takeWhile isLocalChar :=
        take_of_prefix (List.takeWhile_prefix _)
      have hKlt : K < l.length := by
        rcases List.getElem?_eq_some.1 hat with ⟨hb, _⟩
        exact hb
      have hlat : l[K] = '@' := by
        rcases List.getElem?_eq_some.1 hat with ⟨_, hv⟩
        exact hv
      have hldrop : l.drop K = '@' :: rest := by
        rw [List.drop_eq_getElem_cons hKlt, hlat, hrest]
      have hrdrop : rest.drop d = '.' :: rest.drop (d + 1) := by
        rcases List.getElem?_eq_some.1 hdot with ⟨hb, hv⟩
        rw [List.drop_eq_getElem_cons hb, hv]
      have hTpre : rest.take (d + 1 + T.length) = D ++ '.' :: T := by
        rw [List.take_add, List.take_add, hrdrop]
        have h1 : (('.' :: rest.drop (d + 1)).take 1) = ['.'] := rfl
        have hTp : T <+: rest.drop (d + 1) := by
          rw [hT]; exact List.takeWhile_prefix _
        rw [h1, take_of_prefix hTp]
        simp [hD]
      have hmain : l.take (K + 1 + dlen) = (l.takeWhile isLocalChar) ++ '@' :: rest.take dlen := by
        have hsp : l = l.take K ++ l.drop K := (List.take_append_drop K l).symm
        calc l.take (K + 1 + dlen)
            = (l.take K ++ l.drop K).take (K + 1 + dlen) := by rw [← hsp]
          _ = (l.take K ++ '@' :: rest).take (K + 1 + dlen) := by rw [hldrop]
          _ = l.take K ++ ('@' :: rest).take (1 + dlen) := by
              have hlen : (l.take K).length = K := by
                rw [List.length_take]; omega
              rw [show K + 1 + dlen = K + (1 + dlen) by omega]
              exact take_append_len hlen
          _ = l.take K ++ '@' :: rest.take dlen := by
              congr 1
              rw [show (1 : Nat) + dlen = dlen + 1 from by omega]
              rfl
          _ = (l.takeWhile isLocalChar) ++ '@' :: rest.take dlen := by rw [hlK]
      refine ⟨l.takeWhile isLocalChar, D, T, ?_, ?_, ?_, ?_, ?_, ?_, ?_⟩
      · rw [hmain, hdlen, hTpre]
      · intro hc
        apply hK
        rw [hKdef, hc]
        rfl
      · exact fun c hc => List.mem_takeWhile_imp hc
      · intro hc
        rw [hc] at hDlen
        simp at hDlen
        omega
      · intro c hc
        have hdle2 : d ≤ (rest.takeWhile isDomainChar).length := hdle
        exact all_take_of_le_takeWhile hdle2 c hc
      · exact fun c hc => List.mem_takeWhile_imp hc
      · exact htld

/-- Matching at the head of a list that begins with an address shape
succeeds (with some match, not necessarily the same decomposition). -/
theorem matchAt_of_shape_append {loc D T suf : List Char}
    (hloc : loc ≠ []) (hlocP : ∀ c ∈ loc, isLocalChar c = true)
    (hD : D ≠ []) (hDP : ∀ c ∈ D, isDomainChar c = true)
    (hT : ∀ c ∈ T, c.isAlpha = true) (hTlen : 2 ≤ T.length) :
    ∃ m, matchAt ((loc ++ '@' :: (D ++ '.' :: T)) ++ suf) = some m := by
  have hassoc : (loc ++ '@' :: (D ++ '.' :: T)) ++ suf
      = loc ++ '@' :: ((D ++ '.' :: T) ++ suf) := by simp
  rw [hassoc]
  set l := loc ++ '@' :: ((D ++ '.' :: T) ++ suf) with hl
  have htw : l.takeWhile isLocalChar = loc :=
    takeWhile_append_cons (fun c hc => hlocP c hc) (by decide) _
  have hat : l[loc.length]? = some '@' := getElem?_append_mid _ _ _
  have hdrop : l.drop (loc.length + 1) = (D ++ '.' :: T) ++ suf :=
    drop_append_succ _ _ _
  set rest := (D ++ '.' :: T) ++ suf with hrest
  have hD1 : 1 ≤ D.length := by
    cases D with
    | nil => exact absurd rfl hD
    | cons x xs => simp
  have hre : rest = D ++ '.' :: (T ++ suf) := by simp [hrest]
  have hdot : rest[D.length]? = some '.' := by
    rw [hre]; exact getElem?_append_mid _ _ _
  have htld : 2 ≤ ((rest.drop (D.length + 1)).takeWhile Char.isAlpha).length := by
    have h1 : rest.drop (D.length + 1) = T ++ suf := by
      rw [hre]; exact drop_append_succ _ _ _
    rw [h1]
    exact Nat.le_trans hTlen (length_takeWhile_ge hT suf)
  have hdleM : D.length ≤ (rest.takeWhile isDomainChar).length := by
    have : ∀ c ∈ D, isDomainChar c = true := hDP
    calc D.length ≤ ((D ++ ('.' :: (T ++ suf))).takeWhile isDomainChar).length :=
          length_takeWhile_ge hDP _
      _ = (rest.takeWhile isDomainChar).length := by rw [← hre]
  obtain ⟨r, hr⟩ := tryDomainSplit_isSome hD1 hdleM hdot htld
  refine ⟨l.take (loc.length + 1 + r), ?_⟩
  simp only [matchAt, htw]
  rw [if_neg (by simp [hloc]), if_pos hat, hdrop, hr]

/-- Matching `matchAt` on the exact shape `loc ++ '@' :: (D ++ '.' :: T)` returns
the whole list. -/
theorem matchAt_self {loc D T : List Char}
    (hloc : loc ≠ []) (hlocP : ∀ c ∈ loc, isLocalChar c = true)
    (hD : D ≠ []) (hDP : ∀ c ∈ D, isDomainChar c = true)
    (hT : ∀ c ∈ T, c.isAlpha = true) (hTlen : 2 ≤ T.length) :
    matchAt (loc ++ '@' :: (D ++ '.' :: T)) = some (loc ++ '@' :: (D ++ '.' :: T)) := by
  set l := loc ++ '@' :: (D ++ '.' :: T) with hl
  have htw : l.takeWhile isLocalChar = loc :=
    takeWhile_append_cons (fun c hc => hlocP c hc) (by decide) _
  have hat : l[loc.length]? = some '@' := getElem?_append_mid _ _ _
  have hdrop : l.drop (loc.length + 1) = D ++ '.' :: T := drop_append_succ _ _ _
  have hD1 : 1 ≤ D.length := by
    cases D with
    | nil => exact absurd rfl hD
    | cons x xs => simp
  have hdom : ∀ c ∈ D ++ '.' :: T, isDomainChar c = true := by
    intro c hc
    rcases List.mem_append.1 hc with hc | hc
    · exact hDP c hc
    · rcases List.mem_cons.1 hc with rfl | hc
      · decide
      · exact isDomainChar_of_isAlpha (hT c hc)
  have hrtw : (D ++ '.' :: T).takeWhile isDomainChar = D ++ '.' :: T :=
    List.takeWhile_eq_self_iff.2 hdom
  have hlen : (D ++ '.' :: T).length = D.length + 1 + T.length := by
    simp; omega
  have hsplit : tryDomainSplit (D ++ '.' :: T) ((D ++ '.' :: T).takeWhile isDomainChar).length
      = some (D.length + 1 + T.length) := by
    rw [hrtw, hlen]
    exact tryDomainSplit_exact D T hD1 hT hTlen _ (by omega) (by omega)
  simp only [matchAt, htw]
  rw [if_neg (by simp [hloc]), if_pos hat, hdrop, hsplit]
  have hfull : l.length = loc.length + 1 + (D.length + 1 + T.length) := by
    simp [hl]; omega
  show some (l.take (loc.length + 1 + (D.length + 1 + T.length))) = some l
  exact congrArg some (List.take_of_length_le (by rw [hfull]))

/-- A successful search yields the match of `matchAt` at some suffix. -/
theorem findMatch_some {l m : List Char} (h : findMatch l = some m) :
    ∃ l1, l1 <:+ l ∧ matchAt l1 = some m := by
  induction l with
  | nil => simp [findMatch] at h
  | cons c rest ih =>
    rw [findMatch] at h
    split at h
    next hm => exact ⟨c :: rest, List.suffix_refl _, by rw [hm, ← h]⟩
    next => 
      obtain ⟨l1, hs, hm⟩ := ih h
      exact ⟨l1, hs.trans (List.suffix_cons c rest), hm⟩

/-- A head match makes the search succeed with it. -/
theorem findMatch_of_matchAt {l m : List Char} (h : matchAt l = some m) :
    findMatch l = some m := by
  cases l with
  | nil => rw [matchAt_nil] at h; exact absurd h (by simp)
  | cons c rest => rw [findMatch, h]

/-- The search succeeds whenever any suffix has a head match. -/
theorem findMatch_isSome_of_suffix {l l1 m : List Char} (hs : l1 <:+ l)
    (h : matchAt l1 = some m) : ∃ r, findMatch l = some r := by
  obtain ⟨pre, rfl⟩ := hs
  induction pre with
  | nil => exact ⟨m, findMatch_of_matchAt h⟩
  | cons c cs ih =>
    obtain ⟨r, hr⟩ := ih
    rw [List.cons_append, findMatch]
    split
    next m2 hm2 => exact ⟨m2, rfl⟩
    next => exact ⟨r, hr⟩

/-- Projection `toList` inverts `String.mk`. -/
theorem mk_toList (l : List Char) : (String.mk l).toList = l := rfl

/-- Wrapping `String.mk` of a non-empty list is a non-empty string. -/
theorem mk_ne_empty {l : List Char} (h : l ≠ []) : String.mk l ≠ "" := by
  intro hc
  exact h (congrArg String.data hc)

/-- Lower-casing distributes over the address shape (`@` and `.` are
their own lower case). -/
theorem lower_shape (loc D T : List Char) :
    lowerList (loc ++ '@' :: (D ++ '.' :: T))
      = lowerList loc ++ '@' :: (lowerList D ++ '.' :: lowerList T) := by
  simp [lowerList, show lowerChar '@' = '@' from by decide,
    show lowerChar '.' = '.' from by decide]

/-- Inversion of a successful `extractEmailAddress`. -/
theorem extract_some_inv {s a : String}
    (h : extractEmailAddress (some s) = some a) :
    s ≠ "" ∧ ∃ m, findMatch s.toList = some m ∧ a = String.mk (lowerList m) := by
  simp only [extractEmailAddress] at h
  split at h
  · exact absurd h (by simp)
  next hs =>
    split at h
    next m hm =>
      injection h with h
      exact ⟨hs, m, hm, h.symm⟩
    next => exact absurd h (by simp)

/-- A failed `extractEmailAddress` on a non-empty string means a failed
search. -/
theorem extract_none_inv {s : String} (hs : s ≠ "")
    (h : extractEmailAddress (some s) = none) : findMatch s.toList = none := by
  simp only [extractEmailAddress] at h
  rw [if_neg hs] at h
  split at h
  next m hm => exact absurd h (by simp)
  next hm => exact hm

/-- The output of a successful extraction is itself extracted to itself:
the match of a match is the whole lower-cased string. -/
theorem extract_fixed {s a : String}
    (h : extractEmailAddress (some s) = some a) :
    extractEmailAddress (some a) = some a := by
  obtain ⟨hs, m, hm, ha⟩ := extract_some_inv h
  obtain ⟨l1, _, hma⟩ := findMatch_some hm
  obtain ⟨_, loc, D, T, hdec, hloc, hlocP, hD, hDP, hT, hTlen⟩ := matchAt_decomp hma
  subst hdec
  have hlocL : lowerList loc ≠ [] := by
    simpa [lowerList] using hloc
  have hlocP2 : ∀ c ∈ lowerList loc, isLocalChar c = true := by
    intro c hc
    rcases List.mem_map.1 hc with ⟨x, hx, rfl⟩
    exact lowerChar_isLocalChar (hlocP x hx)
  have hDL : lowerList D ≠ [] := by
    simpa [lowerList] using hD
  have hDP2 : ∀ c ∈ lowerList D, isDomainChar c = true := by
    intro c hc
    rcases List.mem_map.1 hc with ⟨x, hx, rfl⟩
    exact lowerChar_isDomainChar (hDP x hx)
  have hT2 : ∀ c ∈ lowerList T, c.isAlpha = true := by
    intro c hc
    rcases List.mem_map.1 hc with ⟨x, hx, rfl⟩
    exact lowerChar_isAlpha (hT x hx)
  have hTlen2 : 2 ≤ (lowerList T).length := by
    simpa [lowerList] using hTlen
  have hre := matchAt_self hlocL hlocP2 hDL hDP2 hT2 hTlen2
  have hfm : findMatch (lowerList (loc ++ '@' :: (D ++ '.' :: T)))
      = some (lowerList (loc ++ '@' :: (D ++ '.' :: T))) := by
    rw [lower_shape]
    exact findMatch_of_matchAt hre
  have hne : lowerList (loc ++ '@' :: (D ++ '.' :: T)) ≠ [] := by
    rw [lower_shape]
    intro hc
    rcases List.append_eq_nil.1 hc with ⟨h1, _⟩
    exact hlocL h1
  rw [ha]
  simp only [extractEmailAddress]
  rw [if_neg (mk_ne_empty hne), mk_toList, hfm]
  show some (String.mk (lowerList (lowerList (loc ++ '@' :: (D ++ '.' :: T)))))
    = some (String.mk (lowerList (loc ++ '@' :: (D ++ '.' :: T))))
  rw [lowerList_idem]

/-- A non-empty extraction result. -/
theorem extract_some_ne_empty {s a : String}
    (h : extractEmailAddress (some s) = some a) : a ≠ "" := by
  obtain ⟨hs, m, hm, ha⟩ := extract_some_inv h
  obtain ⟨l1, _, hma⟩ := findMatch_some hm
  obtain ⟨_, loc, D, T, hdec, hloc, _, _, _, _, _⟩ := matchAt_decomp hma
  subst hdec
  rw [ha]
  apply mk_ne_empty
  rw [lower_shape]
  intro hc
  rcases List.append_eq_nil.1 hc with ⟨h1, _⟩
  exact hloc (by simpa [lowerList] using h1)

/-- Completeness of the search: an infix with the address shape forces a
match. -/
theorem findMatch_isSome_of_shape {l t : List Char}
    (hinf : List.IsInfix t l) (hsh : addrShape t) :
    ∃ r, findMatch l = some r := by
  obtain ⟨s1, s2, rfl⟩ := hinf
  obtain ⟨loc, D, T, rfl, hloc, hlocP, hD, hDP, hT, hTlen⟩ := hsh
  obtain ⟨m, hm⟩ := @matchAt_of_shape_append loc D T s2 hloc hlocP hD hDP hT hTlen
  have hsuf : (loc ++ '@' :: (D ++ '.' :: T)) ++ s2 <:+
      s1 ++ (loc ++ '@' :: (D ++ '.' :: T)) ++ s2 := ⟨s1, by simp⟩
  exact findMatch_isSome_of_suffix hsuf hm

/-- A successful extraction comes from an address-shaped infix of the
input, lower-cased. -/
theorem extract_some_shape {s a : String}
    (h : extractEmailAddress (some s) = some a) :
    ∃ t, List.IsInfix t s.toList ∧ addrShape t ∧ a = String.mk (lowerList t) := by
  obtain ⟨hs, m, hm, ha⟩ := extract_some_inv h
  obtain ⟨l1, hsuf, hma⟩ := findMatch_some hm
  obtain ⟨hpre, hsh⟩ := matchAt_decomp hma
  exact ⟨m, hpre.isInfix.trans hsuf.isInfix, hsh, ha⟩

/-- The search remembers its position: a success happens at some start
position at which `matchAt` succeeds, with `matchAt` failing at every
earlier position. -/
theorem findMatch_some_leftmost {l m : List Char} (h : findMatch l = some m) :
    ∃ i, matchAt (l.drop i) = some m ∧
      ∀ j, j < i → matchAt (l.drop j) = none := by
  induction l with
  | nil => simp [findMatch] at h
  | cons c rest ih =>
    rw [findMatch] at h
    split at h
    next m2 hm2 =>
      injection h with h
      subst h
      exact ⟨0, by simpa using hm2, fun j hj => absurd hj (by omega)⟩
    next hm2 =>
      obtain ⟨i, h1, h2⟩ := ih h
      refine ⟨i + 1, by simpa using h1, ?_⟩
      intro j hj
      cases j with
      | zero => simpa using hm2
      | succ j2 =>
        rw [List.drop_succ_cons]
        exact h2 j2 (by omega)

/-- An address-shaped prefix forces a head match. -/
theorem matchAt_isSome_of_shape_prefix {l t : List Char} (hsh : addrShape t)
    (hpre : t <+: l) : ∃ m, matchAt l = some m := by
  obtain ⟨suf, rfl⟩ := hpre
  obtain ⟨loc, D, T, rfl, hloc, hlocP, hD, hDP, hT, hTlen⟩ := hsh
  exact @matchAt_of_shape_append loc D T suf hloc hlocP hD hDP hT hTlen

/-- C8: `extractEmailAddress` returns a lower-cased substring of its input
matching the address pattern, or absent when there is no such substring
or the input is empty or missing; the substring returned is the first
one: it starts at a position no address-shaped substring precedes; and
the function is idempotent under re-application. -/
theorem C8_extract_email_idempotent :
    (∀ x : Option String,
      extractEmailAddress (extractEmailAddress x) = extractEmailAddress x) ∧
    extractEmailAddress none = none ∧
    extractEmailAddress (some "") = none ∧
    (∀ s a : String, extractEmailAddress (some s) = some a →
      ∃ t, List.IsInfix t s.toList ∧ addrShape t ∧ a = String.mk (lowerList t)) ∧
    (∀ s : String, extractEmailAddress (some s) = none →
      ∀ t, List.IsInfix t s.toList → ¬ addrShape t) ∧
    (∀ s a : String, extractEmailAddress (some s) = some a →
      ∃ (i : Nat) (t : List Char), List.IsPrefix t (s.toList.drop i) ∧
        addrShape t ∧ a = String.mk (lowerList t) ∧
        ∀ j, j < i → ∀ t2, addrShape t2 → ¬ List.IsPrefix t2 (s.toList.drop j)) := by
  refine ⟨?_, rfl, rfl, ?_, ?_, ?_⟩
  · intro x
    match x with
    | none => rfl
    | some s =>
      cases h : extractEmailAddress (some s) with
      | none => rfl
      | some a => exact extract_fixed h
  · exact fun s a h => extract_some_shape h
  · intro s h t hinf hsh
    by_cases hs : s = ""
    · subst hs
      obtain ⟨s1, s2, heq⟩ := hinf
      have ht : t = [] := by
        have h0 : s1 ++ t ++ s2 = [] := heq
        rcases List.append_eq_nil.1 h0 with ⟨h1, _⟩
        exact (List.append_eq_nil.1 h1).2
      obtain ⟨loc, D, T, hdec, hloc, _⟩ := hsh
      rw [ht] at hdec
      exact absurd hdec.symm (by simp)
    · have hnone := extract_none_inv hs h
      obtain ⟨r, hr⟩ := findMatch_isSome_of_shape hinf hsh
      rw [hnone] at hr
      exact absurd hr (by simp)
  · intro s a h
    obtain ⟨hs, m, hm, ha⟩ := extract_some_inv h
    obtain ⟨i, h1, h2⟩ := findMatch_some_leftmost hm
    obtain ⟨hpre, hsh⟩ := matchAt_decomp h1
    refine ⟨i, m, hpre, hsh, ha, ?_⟩
    intro j hj t2 hsh2 hpre2
    obtain ⟨m2, hm2⟩ := matchAt_isSome_of_shape_prefix hsh2 hpre2
    rw [h2 j hj] at hm2
    exact absurd hm2 (by simp)

/-- Concrete instantiation of `C8_extract_email_idempotent`. -/
theorem C8_extract_email_idempotent_witness :
    extractEmailAddress (extractEmailAddress (some "John@Example.COM"))
      = extractEmailAddress (some "John@Example.COM") ∧
    extractEmailAddress (some "John@Example.COM") = some "john@example.com" :=
  ⟨C8_extract_email_idempotent.1 (some "John@Example.COM"), by rfl⟩

/-! ## The specification view of the code regex -/

/-- The word-boundary token of the specification at position `i`: exactly
five or six decimal digits, delimited by the string edge or a non-word
character on both sides (six preferred, though at most one length can
qualify at a given position). -/
def specTokenAt (l : List Char) (i : Nat) : Option (List Char) :=
  if (i = 0 ∨ boundaryOk l[i - 1]? = true) ∧ i + 6 ≤ l.length ∧
      (∀ c ∈ (l.drop i).take 6, c.isDigit = true) ∧ boundaryOk l[i + 6]? = true
  then some ((l.drop i).take 6)
  else if (i = 0 ∨ boundaryOk l[i - 1]? = true) ∧ i + 5 ≤ l.length ∧
      (∀ c ∈ (l.drop i).take 5, c.isDigit = true) ∧ boundaryOk l[i + 5]? = true
  then some ((l.drop i).take 5)
  else none

/-- The first specification token, scanning positions left to right. -/
def specFirstCode (l : List Char) (i : Nat) : Option (List Char) :=
  if _h : i < l.length then
    match specTokenAt l i with
    | some t => some t
    | none => specFirstCode l (i + 1)
  else none
termination_by l.length - i

/-- Whether the position after `pre` has a word character on its left. -/
def lastW (pre : List Char) : Bool :=
  match pre.getLast? with
  | none => false
  | some c => wordChar c

/-- Scan `takeWhile` reaches `k` exactly when the first `k` elements exist and
all satisfy the predicate. -/
theorem le_takeWhile_iff {p : Char → Bool} {l : List Char} {k : Nat} :
    k ≤ (l.takeWhile p).length ↔
      (k ≤ l.length ∧ ∀ c ∈ l.take k, p c = true) := by
  constructor
  · intro h
    have hlen : (l.takeWhile p).length ≤ l.length :=
      (List.takeWhile_prefix p).length_le
    exact ⟨by omega, all_take_of_le_takeWhile h⟩
  · intro ⟨h1, h2⟩
    induction l generalizing k with
    | nil =>
      simp at h1
      omega
    | cons c rest ih =>
      cases k with
      | zero => omega
      | succ k =>
        have hc : p c = true := h2 c (by simp)
        simp only [List.takeWhile_cons, hc, if_pos, List.length_cons]
        have := ih (by simpa using h1)
          (fun x hx => h2 x (by simp [List.take_succ_cons, hx]))
        omega

/-- Matching `codeAt` with its boolean guards read as propositions. -/
theorem codeAt_eq_propIf (l : List Char) :
    codeAt l
      = if 6 ≤ (l.takeWhile Char.isDigit).length ∧ boundaryOk l[6]? = true
        then some (l.take 6)
        else if 5 ≤ (l.takeWhile Char.isDigit).length ∧ boundaryOk l[5]? = true
        then some (l.take 5)
        else none := by
  show (if 6 ≤ (l.takeWhile Char.isDigit).length && boundaryOk l[6]?
      then some (l.take 6)
      else if 5 ≤ (l.takeWhile Char.isDigit).length && boundaryOk l[5]?
      then some (l.take 5)
      else none) = _
  by_cases h6 : 6 ≤ (l.takeWhile Char.isDigit).length ∧ boundaryOk l[6]? = true
  · rw [if_pos (by simp [h6.1, h6.2]), if_pos h6]
  · rw [if_neg (by
      intro hc
      rw [Bool.and_eq_true, decide_eq_true_eq] at hc
      exact h6 hc), if_neg h6]
    by_cases h5 : 5 ≤ (l.takeWhile Char.isDigit).length ∧ boundaryOk l[5]? = true
    · rw [if_pos (by simp [h5.1, h5.2]), if_pos h5]
    · rw [if_neg (by
        intro hc
        rw [Bool.and_eq_true, decide_eq_true_eq] at hc
        exact h5 hc), if_neg h5]

/-- The token the specification sees just past `pre` is the token the
implementation sees at the head of `l`, gated by the left boundary. -/
theorem specTokenAt_append (pre l : List Char) :
    specTokenAt (pre ++ l) pre.length
      = if lastW pre then none else codeAt l := by
  have hdrop : (pre ++ l).drop pre.length = l := List.drop_left pre l
  have hidx : ∀ k : Nat, (pre ++ l)[pre.length + k]? = l[k]? := by
    intro k
    rw [List.getElem?_append_right (by omega)]
    congr 1
    omega
  have hlb : (pre.length = 0 ∨ boundaryOk (pre ++ l)[pre.length - 1]? = true)
      ↔ lastW pre = false := by
    cases hpre : pre.getLast? with
    | none =>
      have hnil : pre = [] := by
        cases pre with
        | nil => rfl
        | cons x xs =>
          rw [show x :: xs = (x :: xs).dropLast ++ [(x :: xs).getLast (by simp)] from
            (List.dropLast_append_getLast (by simp)).symm, List.getLast?_concat] at hpre
          exact absurd hpre (by simp)
      subst hnil
      simp [lastW]
    | some c =>
      have hne : pre ≠ [] := by
        intro hc
        rw [hc] at hpre
        simp at hpre
      have hlen0 : pre.length ≠ 0 := by
        intro hc
        exact hne (List.length_eq_zero.1 hc)
      have hget : (pre ++ l)[pre.length - 1]? = some c := by
        rw [List.getElem?_append_left (by omega), ← List.getLast?_eq_getElem?, hpre]
      rw [hget]
      simp [lastW, hpre, boundaryOk, hlen0]
  have hlen : (pre ++ l).length = pre.length + l.length := List.length_append pre l
  unfold specTokenAt
  rw [hdrop, hidx 6, hidx 5, codeAt_eq_propIf]
  by_cases hw : lastW pre = true
  · have hlbF : ¬ (pre.length = 0 ∨ boundaryOk (pre ++ l)[pre.length - 1]? = true) := by
      rw [hlb, hw]
      simp
    rw [if_pos hw, if_neg (fun hc => hlbF hc.1), if_neg (fun hc => hlbF hc.1)]
  · have hwf : lastW pre = false := by
      cases h2 : lastW pre with
      | false => rfl
      | true => exact absurd h2 hw
    have hlbT : (pre.length = 0 ∨ boundaryOk (pre ++ l)[pre.length - 1]? = true) :=
      hlb.2 hwf
    rw [if_neg hw]
    have h6 : (6 ≤ (l.takeWhile Char.isDigit).length ∧ boundaryOk l[6]? = true)
        ↔ ((pre.length = 0 ∨ boundaryOk (pre ++ l)[pre.length - 1]? = true) ∧
          pre.length + 6 ≤ (pre ++ l).length ∧
          (∀ c ∈ l.take 6, c.isDigit = true) ∧ boundaryOk l[6]? = true) := by
      rw [le_takeWhile_iff]
      constructor
      · rintro ⟨⟨ha, hb⟩, hc⟩
        exact ⟨hlbT, by omega, hb, hc⟩
      · rintro ⟨_, ha, hb, hc⟩
        exact ⟨⟨by omega, hb⟩, hc⟩
    have h5 : (5 ≤ (l.takeWhile Char.isDigit).length ∧ boundaryOk l[5]? = true)
        ↔ ((pre.length = 0 ∨ boundaryOk (pre ++ l)[pre.length - 1]? = true) ∧
          pre.length + 5 ≤ (pre ++ l).length ∧
          (∀ c ∈ l.take 5, c.isDigit = true) ∧ boundaryOk l[5]? = true) := by
      rw [le_takeWhile_iff]
      constructor
      · rintro ⟨⟨ha, hb⟩, hc⟩
        exact ⟨hlbT, by omega, hb, hc⟩
      · rintro ⟨_, ha, hb, hc⟩
        exact ⟨⟨by omega, hb⟩, hc⟩
    by_cases hc6 : 6 ≤ (l.takeWhile Char.isDigit).length ∧ boundaryOk l[6]? = true
    · rw [if_pos (h6.1 hc6), if_pos hc6]
    · rw [if_neg (fun hc => hc6 (h6.2 hc)), if_neg hc6]
      by_cases hc5 : 5 ≤ (l.takeWhile Char.isDigit).length ∧ boundaryOk l[5]? = true
      · rw [if_pos (h5.1 hc5), if_pos hc5]
      · rw [if_neg (fun hc => hc5 (h5.2 hc)), if_neg hc5]

/-- The backtracking scan equals the specification scan: searching `l`
with the word-character flag of the text before it finds the first
specification token of the whole text at or past that point. -/
theorem findCode_eq_spec (l : List Char) :
    ∀ pre : List Char, findCode (lastW pre) l = specFirstCode (pre ++ l) pre.length := by
  induction l with
  | nil =>
    intro pre
    rw [findCode, specFirstCode]
    rw [dif_neg (by simp)]
  | cons c rest ih =>
    intro pre
    rw [findCode, specFirstCode]
    rw [dif_pos (by simp)]
    rw [specTokenAt_append pre (c :: rest)]
    have hrec : specFirstCode (pre ++ c :: rest) (pre.length + 1)
        = findCode (wordChar c) rest := by
      have hl : pre ++ c :: rest = (pre ++ [c]) ++ rest := by simp
      have hlen : pre.length + 1 = (pre ++ [c]).length := by simp
      rw [hl, hlen, ← ih (pre ++ [c])]
      congr 1
      rw [lastW, List.getLast?_concat]
    rw [hrec]

/-- C4: `extractCode` returns exactly the first token of five or six
decimal digits bounded by word boundaries, verbatim, scanning left to
right, and is absent when no such bounded token exists; in particular a
four-digit run or a run of seven or more digits yields no match. -/
theorem C4_extractCode_first_bounded_token :
    (∀ s : String, extractCode s = (specFirstCode s.toList 0).map String.mk) ∧
    extractCode "Your code is 482913, expires soon" = some "482913" ∧
    extractCode "order #12345678 confirmed" = none ∧
    extractCode "1234" = none ∧
    extractCode "12345" = some "12345" ∧
    extractCode "123456" = some "123456" ∧
    extractCode "1234567" = none := by
  refine ⟨?_, by rfl, by rfl, by rfl, by rfl, by rfl, by rfl⟩
  intro s
  exact congrArg (Option.map String.mk) (findCode_eq_spec s.toList [])

/-- A token produced by `codeAt` has five or six characters. -/
theorem codeAt_some_len {l m : List Char} (h : codeAt l = some m) :
    m.length = 6 ∨ m.length = 5 := by
  rw [codeAt_eq_propIf] at h
  split at h
  next hc =>
    injection h with h
    left
    have : 6 ≤ l.length := (le_takeWhile_iff.1 hc.1).1
    rw [← h, List.length_take]
    omega
  next =>
    split at h
    next hc =>
      injection h with h
      right
      have : 5 ≤ l.length := (le_takeWhile_iff.1 hc.1).1
      rw [← h, List.length_take]
      omega
    next => exact absurd h (by simp)

/-- A token found by the scan has five or six characters. -/
theorem findCode_some_len {b : Bool} {l m : List Char}
    (h : findCode b l = some m) : m.length = 6 ∨ m.length = 5 := by
  induction l generalizing b with
  | nil => rw [findCode] at h; exact absurd h (by simp)
  | cons c rest ih =>
    rw [findCode] at h
    split at h
    next hm =>
      injection h with h
      subst h
      cases b with
      | true => exact absurd hm (by simp)
      | false => exact codeAt_some_len hm
    next => exact ih h

/-- An extracted code is never the empty string. -/
theorem extractCode_ne_empty {s c : String} (h : extractCode s = some c) :
    c ≠ "" := by
  simp only [extractCode] at h
  rcases hm : findCode false s.toList with _ | m
  · rw [hm] at h
    simp at h
  · rw [hm] at h
    simp only [Option.map_some'] at h
    injection h with h
    rcases findCode_some_len hm with hl | hl <;>
      (subst h
       apply mk_ne_empty
       intro hc
       rw [hc] at hl
       simp at hl)

/-! ## The specification view of recipient collection -/

/-- First-occurrence deduplication: keep each element's first appearance,
delete its later ones. -/
def firstDedup : List String → List String
  | [] => []
  | x :: xs => x :: firstDedup (xs.filter (fun y => y != x))
termination_by l => l.length
decreasing_by
  simp_wf
  exact Nat.lt_succ_of_le (List.length_filter_le _ _)

/-- The raw extraction results of a list of `to` entries, in order. -/
def extractedOf (entries : List (Option String)) : List String :=
  entries.filterMap (fun e => extractEmailAddress (some (e.getD "")))

/-- Membership-complement of `contains` over a one-element extension. -/
theorem not_contains_append_single (acc : List String) (email a : String) :
    (!(acc ++ [email]).contains a) = ((a != email) && !(acc.contains a)) := by
  by_cases h1 : a ∈ acc <;> by_cases h2 : a = email <;>
    simp [List.contains, List.elem_iff, h1, h2, bne, List.mem_append]

/-- The accumulator loop appends exactly the first-occurrence
deduplication of the not-yet-seen extraction results. -/
theorem recipientsLoop_eq (entries : List (Option String)) :
    ∀ acc : List String,
      recipientsLoop entries acc
        = acc ++ firstDedup ((extractedOf entries).filter
            (fun a => !acc.contains a)) := by
  induction entries with
  | nil =>
    intro acc
    simp [recipientsLoop, extractedOf, firstDedup]
  | cons e rest ih =>
    intro acc
    cases hx : extractEmailAddress (some (e.getD "")) with
    | none =>
      simp only [recipientsLoop, hx]
      rw [ih]
      simp [extractedOf, List.filterMap_cons, hx]
    | some email =>
      simp only [recipientsLoop, hx]
      by_cases hmem : acc.contains email
      · rw [if_pos hmem, ih]
        have hfc : (extractedOf (e :: rest)).filter (fun a => !acc.contains a)
            = (extractedOf rest).filter (fun a => !acc.contains a) := by
          simp only [extractedOf, List.filterMap_cons, hx, List.filter_cons]
          rw [if_neg (by simp; exact List.elem_iff.1 hmem)]
        rw [hfc]
      · rw [if_neg hmem, ih]
        have hm2 : (!acc.contains email) = true := by
          simpa using hmem
        have hfc : (extractedOf (e :: rest)).filter (fun a => !acc.contains a)
            = email :: (extractedOf rest).filter (fun a => !acc.contains a) := by
          simp only [extractedOf, List.filterMap_cons, hx, List.filter_cons]
          rw [if_pos hm2]
        rw [hfc, firstDedup]
        have hff : (extractedOf rest).filter (fun a => !(acc ++ [email]).contains a)
            = ((extractedOf rest).filter (fun a => !acc.contains a)).filter
              (fun y => y != email) := by
          rw [List.filter_filter]
          congr 1
          funext a
          exact not_contains_append_single acc email a
        rw [hff]
        simp

/-- Everything kept by first-occurrence deduplication was present. -/
theorem firstDedup_subset : ∀ L : List String, ∀ a ∈ firstDedup L, a ∈ L := by
  intro L
  induction L using firstDedup.induct with
  | case1 =>
    intro a h
    simp [firstDedup] at h
  | case2 x xs ih =>
    intro a h
    rw [firstDedup] at h
    rcases List.mem_cons.1 h with rfl | h2
    · exact List.mem_cons_self _ _
    · exact List.mem_cons.2 (Or.inr (List.mem_of_mem_filter (ih a h2)))

/-- First-occurrence deduplication yields no duplicates. -/
theorem firstDedup_nodup : ∀ L : List String, (firstDedup L).Nodup := by
  intro L
  induction L using firstDedup.induct with
  | case1 => simp [firstDedup]
  | case2 x xs ih =>
    rw [firstDedup]
    refine List.nodup_cons.2 ⟨?_, ih⟩
    intro hmem
    have hx := firstDedup_subset _ x hmem
    have hp := List.of_mem_filter hx
    simp at hp

/-- C6: `getRecipients` normalizes each entry of the `to` field (single
string or list; absent entries read as empty) through
`extractEmailAddress`, drops failures, and returns the results in order
of first appearance with later duplicates suppressed. -/
theorem C6_getRecipients_unique_ordered :
    (∀ dest : Option (String ⊕ List String),
      getRecipients dest
        = firstDedup ((toEntries dest).filterMap
            (fun e => extractEmailAddress (some (e.getD "")))) ∧
      (getRecipients dest).Nodup) ∧
    getRecipients (some (Sum.inr ["a@x.com", "A@X.COM", "b@y.com"]))
      = ["a@x.com", "b@y.com"] := by
  refine ⟨?_, by rfl⟩
  intro dest
  have h := recipientsLoop_eq (toEntries dest) []
  constructor
  · rw [getRecipients, h]
    simp [extractedOf, List.contains]
  · rw [getRecipients, h]
    simp only [List.nil_append]
    exact firstDedup_nodup _

/-! ## TTL normalization -/

/-- A digit is not `parseInt` whitespace. -/
theorem digit_not_ws {c : Char} (h : c.isDigit = true) :
    isJsWhitespace c = false := by
  have hn : 48 ≤ c.toNat ∧ c.toNat ≤ 57 := by
    simp [Char.isDigit, Bool.and_eq_true, Char.le_def, Char.toNat] at h ⊢
    exact h
  simp only [isJsWhitespace, Bool.or_eq_false_iff, decide_eq_false_iff_not]
  omega

/-- Exactness of binary64 below `2 ^ 53`. -/
theorem f64OfNat_small {n : Nat} (h : n < 2 ^ 53) : f64OfNat n = some n := by
  have hr : f64round n = n := by
    rw [f64round, if_pos h]
  have hlt : n < 2 ^ 1024 := by
    have hp : (2 : Nat) ^ 53 ≤ 2 ^ 1024 := Nat.pow_le_pow_right (by omega) (by omega)
    omega
  rw [f64OfNat, hr, if_neg (by omega)]

/-- Parsing `parseInt` reads a plain non-empty digit string whose value is
exactly representable in binary64 as exactly its decimal value. -/
theorem jsParseInt_digits {s : String} (h1 : s.toList ≠ [])
    (h2 : ∀ c ∈ s.toList, c.isDigit = true) (h3 : decVal s.toList < 2 ^ 53) :
    jsParseInt s = JsNumber.finite ((decVal s.toList : Nat) : Int) := by
  rcases hl : s.toList with _ | ⟨c, rest⟩
  · exact absurd hl h1
  have hc : c.isDigit = true := h2 c (by rw [hl]; simp)
  have hdrop : (c :: rest).dropWhile isJsWhitespace = c :: rest := by
    rw [List.dropWhile_cons, digit_not_ws hc]
    simp
  have hminus : ¬ c = '-' := by
    intro hcc
    rw [hcc] at hc
    exact absurd hc (by decide)
  have hplus : ¬ c = '+' := by
    intro hcc
    rw [hcc] at hc
    exact absurd hc (by decide)
  have htw : (c :: rest).takeWhile Char.isDigit = c :: rest :=
    List.takeWhile_eq_self_iff.2 (by rw [← hl]; exact h2)
  have hpfx : digitsPfx (c :: rest) = some (decVal (c :: rest)) := by
    simp only [digitsPfx, htw]
    rw [if_neg (by simp)]
  rw [hl] at h3
  simp only [jsParseInt, hl, hdrop]
  rw [if_neg hminus, if_neg hplus, hpfx]
  dsimp only
  rw [f64OfNat_small h3]

set_option maxRecDepth 1000000 in
/-- C5 counterexample: the configured string `"12.5"` is not a decimal
integer numeral, yet the effective TTL is 12, not the default 600
(`parseInt` stops at the first non-digit and keeps the prefix). -/
theorem C5_ttl_counterexample :
    normalizeTtlSeconds (some "12.5") ≠ 600 ∧
    normalizeTtlSeconds (some "12.5") = 12 ∧
    "12.5".toList.all Char.isDigit = false := by
  refine ⟨by decide, by decide, by decide⟩

set_option maxRecDepth 1000000 in
/-- C5 (amended): a TTL string that is a plain positive decimal numeral
below `2 ^ 53` yields exactly its value; an absent value, an unparsable
value (`NaN`), an overflow to either Infinity (rejected by
`Number.isFinite`), or a non-positive parse yields the default 600; a
positive finite parse is returned as is; and since `parseInt` returns a
binary64, a numeral at or above `2 ^ 53` is rounded to nearest-even
(`"9007199254740993"` gives 9007199254740992) while a numeral past the
binary64 range gives Infinity and hence 600.  Any string whose
prefix-parse is positive yields that parse even with trailing
non-numeric text, where the claim as stated demanded 600. -/
theorem C5_ttl_amended :
    (∀ (s : String) (n : Nat), s.toList ≠ [] →
      (∀ c ∈ s.toList, c.isDigit = true) → decVal s.toList = n → 0 < n →
      n < 2 ^ 53 →
      normalizeTtlSeconds (some s) = (n : Int)) ∧
    normalizeTtlSeconds none = 600 ∧
    (∀ s : String, jsParseInt s = JsNumber.nan →
      normalizeTtlSeconds (some s) = 600) ∧
    (∀ s : String, jsParseInt s = JsNumber.posInf →
      normalizeTtlSeconds (some s) = 600) ∧
    (∀ s : String, jsParseInt s = JsNumber.negInf →
      normalizeTtlSeconds (some s) = 600) ∧
    (∀ (s : String) (k : Int), jsParseInt s = JsNumber.finite k → k ≤ 0 →
      normalizeTtlSeconds (some s) = 600) ∧
    (∀ (s : String) (k : Int), jsParseInt s = JsNumber.finite k → 0 < k →
      normalizeTtlSeconds (some s) = k) ∧
    normalizeTtlSeconds (some "9007199254740993") = 9007199254740992 ∧
    normalizeTtlSeconds (some (String.mk ('1' :: '8' :: List.replicate 307 '0')))
      = 600 := by
  have hbase : ∀ (s : String) (k : Int), jsParseInt s = JsNumber.finite k → 0 < k →
      normalizeTtlSeconds (some s) = k := by
    intro s k h hpos
    simp only [normalizeTtlSeconds, Option.getD_some, h]
    rw [if_pos hpos]
  refine ⟨?_, by rfl, ?_, ?_, ?_, ?_, hbase, by decide, by decide⟩
  · intro s n h1 h2 h3 h4 h5
    refine hbase s (n : Int) ?_ (by exact_mod_cast h4)
    rw [jsParseInt_digits h1 h2 (by omega), h3]
  · intro s h
    simp only [normalizeTtlSeconds, Option.getD_some, h]
  · intro s h
    simp only [normalizeTtlSeconds, Option.getD_some, h]
  · intro s h
    simp only [normalizeTtlSeconds, Option.getD_some, h]
  · intro s k h hnp
    simp only [normalizeTtlSeconds, Option.getD_some, h]
    rw [if_neg (by omega)]

set_option maxRecDepth 1000000 in
/-- Concrete instantiation of `C5_ttl_amended`. -/
theorem C5_ttl_amended_witness :
    normalizeTtlSeconds (some "120") = (120 : Int) :=
  C5_ttl_amended.1 "120" 120 (by decide) (by decide) (by decide) (by decide)
    (by decide)

/-- C9: `readRawText` returns the full body text on a successful read and
the empty string when the stream is absent or the read fails; it is a
total function of the read outcome, so no exception reaches the caller. -/
theorem C9_readRawText_absorbs_failure :
    (∀ s : String, readRawText (some (Except.ok s)) = s) ∧
    readRawText none = "" ∧
    (∀ e : Unit, readRawText (some (Except.error e)) = "") :=
  ⟨fun _ => rfl, rfl, fun _ => rfl⟩

/-- C7: the inbound handler issues no store write when the recipient list
is empty or when no code is found in `subject ++ "\n" ++ body` (it returns
normally, with no error), and otherwise issues exactly one write
`(buildKey r, code, ttl)` per recipient, in order. -/
theorem C7_email_frame :
    ∀ (msg : InboundMessage) (env : WorkerEnv),
      (getRecipients msg.toField = [] → emailHandler msg env = []) ∧
      (extractCode (msg.subject.getD "" ++ "\n" ++ readRawText msg.raw) = none →
        emailHandler msg env = []) ∧
      (∀ code : String, getRecipients msg.toField ≠ [] →
        extractCode (msg.subject.getD "" ++ "\n" ++ readRawText msg.raw) = some code →
        emailHandler msg env
          = (getRecipients msg.toField).map (fun r =>
              { key := buildKey r, value := code,
                expirationTtl := normalizeTtlSeconds env.CODE_TTL_SECONDS })) := by
  intro msg env
  refine ⟨?_, ?_, ?_⟩
  · intro h
    simp [emailHandler, h]
  · intro h
    simp only [emailHandler]
    split
    · rfl
    · rw [h]
  · intro code hne hsome
    simp only [emailHandler]
    rw [if_neg (by simpa using fun hc => hne (List.length_eq_zero.1 hc)), hsome]

set_option maxRecDepth 1000000 in
/-- Concrete instantiation of `C7_email_frame` on the specification's
end-to-end scenario. -/
theorem C7_email_frame_witness :
    emailHandler
        { toField := some (Sum.inl "user@test.com"), subject := some "Code",
          raw := some (Except.ok "Use 73920 to verify") }
        { ACCESS_KEY := "k", CODE_TTL_SECONDS := some "120", DOMAINS := none }
      = [{ key := "code:user@test.com", value := "73920", expirationTtl := 120 }] := by
  have h := (C7_email_frame
    { toField := some (Sum.inl "user@test.com"), subject := some "Code",
      raw := some (Except.ok "Use 73920 to verify") }
    { ACCESS_KEY := "k", CODE_TTL_SECONDS := some "120", DOMAINS := none }).2.2
    "73920" (by decide) (by rfl)
  rw [h]
  rfl

/-- C1: a GET request is answered 401 unauthorized unless the
authorization header carries a bearer credential (scheme matched
case-insensitively, credential trimmed) exactly equal to the configured
access key; with an empty (or unbound, read as empty) configured key the
response is 401 whatever the headers; and with a matching credential and
non-empty key no branch of the handler produces a 401. -/
theorem C1_auth_gate :
    ∀ (req : HttpRequest) (env : WorkerEnv) (kv : String → Option String),
      req.method = "GET" →
      ((env.ACCESS_KEY = "" ∨ getAccessKeyOf req.authorization ≠ env.ACCESS_KEY) →
        fetchHandler req env kv
          = Except.ok { status := 401, body := JsonBody.err "unauthorized" }) ∧
      (env.ACCESS_KEY ≠ "" → getAccessKeyOf req.authorization = env.ACCESS_KEY →
        ∀ r : HttpResponse, fetchHandler req env kv = Except.ok r →
          r.status ≠ 401) := by
  intro req env kv hm
  constructor
  · intro hcond
    simp only [fetchHandler]
    rw [if_neg (by simp [hm]), if_pos hcond]
  · intro hk ha r hr hs
    simp only [fetchHandler] at hr
    rw [if_neg (by simp [hm]),
      if_neg (by rw [not_or]; exact ⟨hk, fun hne => hne ha⟩)] at hr
    split at hr
    · injection hr with hr
      rw [← hr] at hs
      simp at hs
    · split at hr
      · exact absurd hr (by simp)
      · split at hr
        · injection hr with hr
          rw [← hr] at hs
          simp at hs
        · split at hr
          · injection hr with hr
            rw [← hr] at hs
            simp at hs
          · split at hr
            · injection hr with hr
              rw [← hr] at hs
              simp at hs
            · injection hr with hr
              rw [← hr] at hs
              simp at hs

/-- Concrete instantiation of `C1_auth_gate`: no header and a wrong
header are both refused, and an empty configured key refuses a
well-formed bearer header. -/
theorem C1_auth_gate_witness :
    fetchHandler { method := "GET", pathname := "/user@test.com", authorization := none }
        { ACCESS_KEY := "k", CODE_TTL_SECONDS := none, DOMAINS := none } (fun _ => none)
      = Except.ok { status := 401, body := JsonBody.err "unauthorized" } ∧
    fetchHandler { method := "GET", pathname := "/", authorization := some "Bearer wrong" }
        { ACCESS_KEY := "k", CODE_TTL_SECONDS := none, DOMAINS := none } (fun _ => none)
      = Except.ok { status := 401, body := JsonBody.err "unauthorized" } ∧
    fetchHandler { method := "GET", pathname := "/", authorization := some "Bearer k" }
        { ACCESS_KEY := "", CODE_TTL_SECONDS := none, DOMAINS := none } (fun _ => none)
      = Except.ok { status := 401, body := JsonBody.err "unauthorized" } :=
  ⟨(C1_auth_gate _ _ _ rfl).1 (by right; decide),
   (C1_auth_gate _ _ _ rfl).1 (by right; decide),
   (C1_auth_gate _ _ _ rfl).1 (by left; rfl)⟩

/-- C10: on an authorized GET lookup of a valid address, a stored empty
string and an absent record produce the identical response, 404 with an
empty code payload (`if (!code)` treats the falsy empty string as
absence). -/
theorem C10_empty_code_not_found :
    ∀ (req : HttpRequest) (env : WorkerEnv) (kv : String → Option String)
      (dec addr : String),
      req.method = "GET" → env.ACCESS_KEY ≠ "" →
      getAccessKeyOf req.authorization = env.ACCESS_KEY →
      stripSlashes req.pathname ≠ "" →
      decodeURIComponentModel (stripSlashes req.pathname) = some dec →
      extractEmailAddress (some dec) = some addr →
      (kv (buildKey addr) = some "" ∨ kv (buildKey addr) = none) →
      fetchHandler req env kv
        = Except.ok { status := 404, body := JsonBody.code "" } := by
  intro req env kv dec addr hm hk ha hp hdec hx hkv
  simp only [fetchHandler]
  rw [if_neg (by simp [hm]),
    if_neg (by rw [not_or]; exact ⟨hk, fun hne => hne ha⟩),
    if_neg hp, hdec]
  dsimp only
  rw [hx]
  dsimp only
  rcases hkv with hkv | hkv
  · rw [hkv]
    rfl
  · rw [hkv]

/-- Concrete instantiation of `C10_empty_code_not_found` for both store
states. -/
theorem C10_empty_code_not_found_witness :
    fetchHandler { method := "GET", pathname := "/user@test.com", authorization := some "Bearer k" }
        { ACCESS_KEY := "k", CODE_TTL_SECONDS := none, DOMAINS := none }
        (fun key => if key = "code:user@test.com" then some "" else none)
      = Except.ok { status := 404, body := JsonBody.code "" } ∧
    fetchHandler { method := "GET", pathname := "/user@test.com", authorization := some "Bearer k" }
        { ACCESS_KEY := "k", CODE_TTL_SECONDS := none, DOMAINS := none }
        (fun _ => none)
      = Except.ok { status := 404, body := JsonBody.code "" } :=
  ⟨C10_empty_code_not_found _ _ _ "user@test.com" "user@test.com" rfl (by decide)
      (by rfl) (by decide) (by rfl) (by rfl) (Or.inl (by rfl)),
   C10_empty_code_not_found _ _ _ "user@test.com" "user@test.com" rfl (by decide)
      (by rfl) (by decide) (by rfl) (by rfl) (Or.inr rfl)⟩

/-- C3 counterexample: with valid authorization, the lookup token `%zz`
is a malformed percent-encoding; `decodeURIComponent` throws, the
exception escapes `fetch`, and no 400 "invalid email" response is
produced. -/
theorem C3_invalid_email_counterexample :
    fetchHandler { method := "GET", pathname := "/%zz", authorization := some "Bearer k" }
        { ACCESS_KEY := "k", CODE_TTL_SECONDS := none, DOMAINS := none } (fun _ => none)
      = Except.error () ∧
    (Except.error () : Except Unit HttpResponse)
      ≠ Except.ok { status := 400, body := JsonBody.err "invalid email" } := by
  exact ⟨rfl, fun hcon => Except.noConfusion hcon⟩

/-- C3 (amended): for an authorized GET whose non-empty routing token
URL-decodes successfully but yields no valid address, the handler
responds 400 "invalid email"; a token whose percent-encoding is malformed
instead makes the handler throw, propagating the error to the platform. -/
theorem C3_invalid_email_amended :
    ∀ (req : HttpRequest) (env : WorkerEnv) (kv : String → Option String),
      req.method = "GET" → env.ACCESS_KEY ≠ "" →
      getAccessKeyOf req.authorization = env.ACCESS_KEY →
      stripSlashes req.pathname ≠ "" →
      (∀ dec : String,
        decodeURIComponentModel (stripSlashes req.pathname) = some dec →
        extractEmailAddress (some dec) = none →
        fetchHandler req env kv
          = Except.ok { status := 400, body := JsonBody.err "invalid email" }) ∧
      (decodeURIComponentModel (stripSlashes req.pathname) = none →
        fetchHandler req env kv = Except.error ()) := by
  intro req env kv hm hk ha hp
  constructor
  · intro dec hdec hx
    simp only [fetchHandler]
    rw [if_neg (by simp [hm]),
      if_neg (by rw [not_or]; exact ⟨hk, fun hne => hne ha⟩),
      if_neg hp, hdec]
    dsimp only
    rw [hx]
  · intro hdec
    simp only [fetchHandler]
    rw [if_neg (by simp [hm]),
      if_neg (by rw [not_or]; exact ⟨hk, fun hne => hne ha⟩),
      if_neg hp, hdec]

/-- Concrete instantiation of `C3_invalid_email_amended`. -/
theorem C3_invalid_email_amended_witness :
    fetchHandler { method := "GET", pathname := "/nonsense", authorization := some "Bearer k" }
        { ACCESS_KEY := "k", CODE_TTL_SECONDS := none, DOMAINS := none } (fun _ => none)
      = Except.ok { status := 400, body := JsonBody.err "invalid email" } :=
  (C3_invalid_email_amended _ _ _ rfl (by decide) (by rfl) (by decide)).1
    "nonsense" (by rfl) (by rfl)

/-- Every store write of the inbound handler carries the extracted code
under the key of one of the recipients. -/
theorem emailHandler_mem {msg : InboundMessage} {env : WorkerEnv}
    {w : StoreWrite} (h : w ∈ emailHandler msg env) :
    ∃ code : String,
      extractCode (msg.subject.getD "" ++ "\n" ++ readRawText msg.raw) = some code ∧
      w.value = code ∧
      ∃ r ∈ getRecipients msg.toField, w.key = buildKey r := by
  simp only [emailHandler] at h
  split at h
  · exact absurd h (by simp)
  · split at h
    next => exact absurd h (by simp)
    next code hcode =>
      rcases List.mem_map.1 h with ⟨r, hr, heq⟩
      exact ⟨code, hcode, by rw [← heq], r, hr, by rw [← heq]⟩

/-- Key formation is injective. -/
theorem buildKey_inj {a b : String} (h : buildKey a = buildKey b) : a = b := by
  have hd := congrArg String.data h
  simp only [buildKey, String.data_append] at hd
  have hab : a.data = b.data := List.append_cancel_left hd
  exact congrArg String.mk hab

/-- Every address produced by the accumulator loop was in the accumulator
or is an extraction result of some entry. -/
theorem recipientsLoop_mem {entries : List (Option String)} :
    ∀ {acc : List String} {a : String}, a ∈ recipientsLoop entries acc →
      a ∈ acc ∨ ∃ e ∈ entries, extractEmailAddress (some (e.getD "")) = some a := by
  induction entries with
  | nil =>
    intro acc a h
    exact Or.inl h
  | cons e rest ih =>
    intro acc a h
    rw [recipientsLoop] at h
    rcases hx : extractEmailAddress (some (e.getD "")) with _ | email <;>
      simp only [hx] at h
    · rcases ih h with h2 | ⟨e2, he2, hx2⟩
      · exact Or.inl h2
      · exact Or.inr ⟨e2, by simp [he2], hx2⟩
    · split at h
      · rcases ih h with h2 | ⟨e2, he2, hx2⟩
        · exact Or.inl h2
        · exact Or.inr ⟨e2, by simp [he2], hx2⟩
      · rcases ih h with h2 | ⟨e2, he2, hx2⟩
        · rcases List.mem_append.1 h2 with h3 | h3
          · exact Or.inl h3
          · have : a = email := by simpa using h3
            subst this
            exact Or.inr ⟨e, by simp, hx⟩
        · exact Or.inr ⟨e2, by simp [he2], hx2⟩

/-- Every recipient is an output of `extractEmailAddress`. -/
theorem getRecipients_mem {dest : Option (String ⊕ List String)} {a : String}
    (h : a ∈ getRecipients dest) :
    ∃ e ∈ toEntries dest, extractEmailAddress (some (e.getD "")) = some a := by
  rcases recipientsLoop_mem h with h2 | h2
  · exact absurd h2 (by simp)
  · exact h2

/-- Decoding the empty token yields the empty string. -/
theorem decode_empty : decodeURIComponentModel "" = some "" := rfl

/-- C2: a code written by the inbound handler under `buildKey(address)`
and still present in the store is returned with status 200 by every
authorized GET lookup whose routing token URL-decodes to that same
address — `buildKey` and the address normalization agree on the store
and query paths (the kv hypothesis states the record is unexpired). -/
theorem C2_roundtrip :
    ∀ (msg : InboundMessage) (env : WorkerEnv) (req : HttpRequest)
      (kv : String → Option String) (address code : String) (ttl : Int),
      StoreWrite.mk (buildKey address) code ttl ∈ emailHandler msg env →
      kv (buildKey address) = some code →
      req.method = "GET" → env.ACCESS_KEY ≠ "" →
      getAccessKeyOf req.authorization = env.ACCESS_KEY →
      decodeURIComponentModel (stripSlashes req.pathname) = some address →
      fetchHandler req env kv
        = Except.ok { status := 200, body := JsonBody.code code } := by
  intro msg env req kv address code ttl hw hkv hm hk ha hdec
  obtain ⟨code2, hcode, hval, r, hr, hkey⟩ := emailHandler_mem hw
  have hvc : code = code2 := hval
  have hra : address = r := buildKey_inj hkey
  subst hra
  obtain ⟨e, he, hx⟩ := getRecipients_mem hr
  have hfix : extractEmailAddress (some address) = some address := extract_fixed hx
  have hane : address ≠ "" := extract_some_ne_empty hx
  have hcne : code ≠ "" := by
    rw [hvc]
    exact extractCode_ne_empty hcode
  have hp : stripSlashes req.pathname ≠ "" := by
    intro hps
    rw [hps, decode_empty] at hdec
    injection hdec with hdec
    exact hane hdec.symm
  simp only [fetchHandler]
  rw [if_neg (by simp [hm]),
    if_neg (by rw [not_or]; exact ⟨hk, fun hne => hne ha⟩),
    if_neg hp, hdec]
  dsimp only
  rw [hfix]
  dsimp only
  rw [hkv]
  dsimp only
  rw [if_neg hcne]

set_option maxRecDepth 1000000 in
/-- Concrete instantiation of `C2_roundtrip` on the specification's
end-to-end scenario. -/
theorem C2_roundtrip_witness :
    fetchHandler { method := "GET", pathname := "/user@test.com", authorization := some "Bearer k" }
        { ACCESS_KEY := "k", CODE_TTL_SECONDS := some "120", DOMAINS := none }
        (fun key => if key = "code:user@test.com" then some "73920" else none)
      = Except.ok { status := 200, body := JsonBody.code "73920" } :=
  C2_roundtrip
    { toField := some (Sum.inl "user@test.com"), subject := some "Code",
      raw := some (Except.ok "Use 73920 to verify") }
    { ACCESS_KEY := "k", CODE_TTL_SECONDS := some "120", DOMAINS := none }
    { method := "GET", pathname := "/user@test.com", authorization := some "Bearer k" }
    (fun key => if key = "code:user@test.com" then some "73920" else none)
    "user@test.com" "73920" 120 (by decide) (by decide) rfl (by decide) (by rfl) (by rfl)
